import Mathlib

/-!
# Verification of the `0x01-caching` eviction-policy family

Shallow embedding of the five cache classes of `src/0x01-caching`
(`1-fifo_cache.py`, `2-lifo_cache.py`, `3-lru_cache.py`, `4-mru_cache.py`,
`100-lfu_cache.py`).  Python's insertion-ordered `dict` is embedded as an
association list (`List (K × V)`): assignment to an existing key updates the
value in place keeping its position, assignment to a new key appends at the
end, `pop`/`del` removes the single entry with that key, and `next(iter(d))`
is the head key.  Python `list` auxiliaries are `List K`; `list.remove`
deletes the first occurrence (`List.erase`), `list.pop()` takes the last
element, `list.pop(0)` the head.  `None` arguments are `Option`.  Each `put`
returns the evicted key (the `DISCARD: <key>` notification) alongside the
new state; each `get` returns the possibly-updated state and the looked-up
value.
-/

open scoped List

namespace Caching

/-- Modelled from the spec: `BaseCaching.MAX_ITEMS`, the fixed capacity
constant of `base_caching.py` (not present under `src/`); the spec fixes it
at 4 ("size ≤ MAX_ITEMS (fixed constant, e.g. 4)", "default 4"). -/
def MAX_ITEMS : Nat := 4

variable {K V : Type} [DecidableEq K]

/-- Lookup in an insertion-ordered dict: `d.get(k, None)` / `d[k]`. -/
def dGet (k : K) : List (K × V) → Option V
  | [] => none
  | (k', v') :: rest => if k = k' then some v' else dGet k rest

/-- Membership test `k in d`. -/
def dMem (k : K) (l : List (K × V)) : Bool :=
  (dGet k l).isSome

/-- Assignment `d[k] = v`: update in place if the key exists (keeping its
position, as Python's ordered dict does), otherwise append at the end. -/
def dInsert (k : K) (v : V) : List (K × V) → List (K × V)
  | [] => [(k, v)]
  | (k', v') :: rest =>
      if k = k' then (k, v) :: rest else (k', v') :: dInsert k v rest

/-- Deletion `d.pop(k)` / `del d[k]`: remove the entry with key `k`. -/
def dPop (k : K) : List (K × V) → List (K × V)
  | [] => []
  | (k', v') :: rest => if k = k' then rest else (k', v') :: dPop k rest

/-- The keys of a dict, in insertion order. -/
def keysOf (l : List (K × V)) : List K :=
  l.map Prod.fst

/-- One cache operation: `put(key, item)` (arguments may be `None`) or
`get(key)`. -/
inductive Op (K V : Type) where
  | put (key : Option K) (item : Option V)
  | get (key : K)

/-! ## FIFO (`1-fifo_cache.py`) -/

/-- `FIFOCache.put`: no-op when key or item is `None`; when the cache is at
capacity and the key is new, discard the oldest entry (`next(iter(d))`, the
head) before inserting.  Returns the new `cache_data` and the discarded
key. -/
def FIFOput (key : Option K) (item : Option V) (s : List (K × V)) :
    List (K × V) × Option K :=
  match key, item with
  | some k, some v =>
      if MAX_ITEMS ≤ s.length ∧ dMem k s = false then
        match s with
        | [] => ([(k, v)], none)
        | (ok, _) :: rest => (dInsert k v rest, some ok)
      else (dInsert k v s, none)
  | _, _ => (s, none)

/-- `FIFOCache.get`: `self.cache_data.get(key, None)`; no state change. -/
def FIFOget (key : K) (s : List (K × V)) : List (K × V) × Option V :=
  (s, dGet key s)

/-- One step of a `FIFOCache` driven by an operation. -/
def FIFOstep (s : List (K × V)) : Op K V → List (K × V)
  | .put key item => (FIFOput key item s).1
  | .get key => (FIFOget key s).1

/-- Run a `FIFOCache` from the empty cache over a list of operations. -/
def runFIFO (ops : List (Op K V)) : List (K × V) :=
  ops.foldl FIFOstep []

/-! ## LIFO (`2-lifo_cache.py`) -/

/-- State of a `LIFOCache`: `cache_data` plus `__stack_keys`. -/
structure LIFOState (K V : Type) where
  cache_data : List (K × V)
  stack_keys : List K
  deriving Repr, DecidableEq

/-- The empty `LIFOCache` built by `LIFOCache.__init__`. -/
def LIFOempty : LIFOState K V := ⟨[], []⟩

/-- `LIFOCache.put`: no-op when key or item is `None`.  An existing key is
removed from the stack and re-pushed; a new key at capacity first discards
the stack's top (`__stack_keys.pop()`, the last element). -/
def LIFOput (key : Option K) (item : Option V) (s : LIFOState K V) :
    LIFOState K V × Option K :=
  match key, item with
  | some k, some v =>
      if dMem k s.cache_data then
        (⟨dInsert k v s.cache_data, (s.stack_keys.erase k) ++ [k]⟩, none)
      else if MAX_ITEMS ≤ s.cache_data.length then
        match s.stack_keys.getLast? with
        | some kr =>
            (⟨dInsert k v (dPop kr s.cache_data),
              s.stack_keys.dropLast ++ [k]⟩, some kr)
        | none =>
            (⟨dInsert k v s.cache_data, s.stack_keys ++ [k]⟩, none)
      else (⟨dInsert k v s.cache_data, s.stack_keys ++ [k]⟩, none)
  | _, _ => (s, none)

/-- `LIFOCache.get`: `self.cache_data.get(key, None)`; no state change. -/
def LIFOget (key : K) (s : LIFOState K V) : LIFOState K V × Option V :=
  (s, dGet key s.cache_data)

/-- One step of a `LIFOCache` driven by an operation. -/
def LIFOstep (s : LIFOState K V) : Op K V → LIFOState K V
  | .put key item => (LIFOput key item s).1
  | .get key => (LIFOget key s).1

/-- Run a `LIFOCache` from the empty cache over a list of operations. -/
def runLIFO (ops : List (Op K V)) : LIFOState K V :=
  ops.foldl LIFOstep LIFOempty

/-! ## LRU (`3-lru_cache.py`) -/

/-- State of an `LRUCache` (and of an `MRUCache`, which has the same
fields): `cache_data` plus `__access_order`. -/
structure LRUState (K V : Type) where
  cache_data : List (K × V)
  access_order : List K
  deriving Repr, DecidableEq

/-- The empty `LRUCache` / `MRUCache`. -/
def LRUempty : LRUState K V := ⟨[], []⟩

/-- `LRUCache.put`: no-op when key or item is `None`.  An existing key is
removed from the access list and re-appended; a new key at capacity first
discards the list's head (`__access_order.pop(0)`, the least recently
used). -/
def LRUput (key : Option K) (item : Option V) (s : LRUState K V) :
    LRUState K V × Option K :=
  match key, item with
  | some k, some v =>
      if dMem k s.cache_data then
        (⟨dInsert k v s.cache_data, (s.access_order.erase k) ++ [k]⟩, none)
      else if MAX_ITEMS ≤ s.cache_data.length then
        match s.access_order with
        | lru :: rest =>
            (⟨dInsert k v (dPop lru s.cache_data), rest ++ [k]⟩, some lru)
        | [] => (⟨dInsert k v s.cache_data, [k]⟩, none)
      else (⟨dInsert k v s.cache_data, s.access_order ++ [k]⟩, none)
  | _, _ => (s, none)

/-- `LRUCache.get`: on a hit, move the key to the tail of the access list
and return the value; on a miss return `None` unchanged. -/
def LRUget (key : K) (s : LRUState K V) : LRUState K V × Option V :=
  if dMem key s.cache_data then
    (⟨s.cache_data, (s.access_order.erase key) ++ [key]⟩, dGet key s.cache_data)
  else (s, none)

/-- One step of an `LRUCache` driven by an operation. -/
def LRUstep (s : LRUState K V) : Op K V → LRUState K V
  | .put key item => (LRUput key item s).1
  | .get key => (LRUget key s).1

/-- Run an `LRUCache` from the empty cache over a list of operations. -/
def runLRU (ops : List (Op K V)) : LRUState K V :=
  ops.foldl LRUstep LRUempty

/-! ## MRU (`4-mru_cache.py`) -/

/-- `MRUCache.put`: identical to `LRUCache.put` except that at capacity it
discards the access list's tail (`__access_order.pop()`, the most recently
used), before the new key is appended. -/
def MRUput (key : Option K) (item : Option V) (s : LRUState K V) :
    LRUState K V × Option K :=
  match key, item with
  | some k, some v =>
      if dMem k s.cache_data then
        (⟨dInsert k v s.cache_data, (s.access_order.erase k) ++ [k]⟩, none)
      else if MAX_ITEMS ≤ s.cache_data.length then
        match s.access_order.getLast? with
        | some mru =>
            (⟨dInsert k v (dPop mru s.cache_data),
              s.access_order.dropLast ++ [k]⟩, some mru)
        | none => (⟨dInsert k v s.cache_data, s.access_order ++ [k]⟩, none)
      else (⟨dInsert k v s.cache_data, s.access_order ++ [k]⟩, none)
  | _, _ => (s, none)

/-- `MRUCache.get`: same as `LRUCache.get` (moves a hit key to the tail). -/
def MRUget (key : K) (s : LRUState K V) : LRUState K V × Option V :=
  LRUget key s

/-- One step of an `MRUCache` driven by an operation. -/
def MRUstep (s : LRUState K V) : Op K V → LRUState K V
  | .put key item => (MRUput key item s).1
  | .get key => (MRUget key s).1

/-- Run an `MRUCache` from the empty cache over a list of operations. -/
def runMRU (ops : List (Op K V)) : LRUState K V :=
  ops.foldl MRUstep LRUempty

/-! ## LFU (`100-lfu_cache.py`) -/

/-- State of an `LFUCache`: `cache_data`, the per-key `__frequency`
counters, and `__usage_order`, a dict from frequency level to the ordered
list of keys at that level. -/
structure LFUState (K V : Type) where
  cache_data : List (K × V)
  frequency : List (K × Nat)
  usage_order : List (Nat × List K)
  deriving Repr, DecidableEq

/-- The empty `LFUCache`. -/
def LFUempty : LFUState K V := ⟨[], [], []⟩

/-- `LFUCache.__update_usage`: increment the key's frequency, remove it
from its old frequency bucket (deleting the bucket if it becomes empty),
and append it to the bucket one level up.  The Python code indexes
`self.__frequency[key]` unconditionally; it is only called on present
keys, so the (unreachable) missing-key case is the identity. -/
def updateUsage (k : K) (s : LFUState K V) : LFUState K V :=
  match dGet k s.frequency with
  | none => s
  | some freq =>
      let frequency := dInsert k (freq + 1) s.frequency
      let bucket := (dGet freq s.usage_order).getD []
      let bucket' := bucket.erase k
      let uo :=
        if bucket'.isEmpty then dPop freq s.usage_order
        else dInsert freq bucket' s.usage_order
      let nb := (dGet (freq + 1) uo).getD []
      ⟨s.cache_data, frequency, dInsert (freq + 1) (nb ++ [k]) uo⟩

/-- `LFUCache.put`: no-op when key or item is `None`.  An existing key has
its value overwritten and its usage promoted.  A new key at capacity first
evicts the head (`pop(0)`) of the minimum-frequency bucket, deleting the
bucket if emptied and the key's frequency entry; then the new key is
inserted at frequency 1, appended to bucket 1. -/
def LFUput (key : Option K) (item : Option V) (s : LFUState K V) :
    LFUState K V × Option K :=
  match key, item with
  | some k, some v =>
      if dMem k s.cache_data then
        (updateUsage k ⟨dInsert k v s.cache_data, s.frequency, s.usage_order⟩,
         none)
      else
        let evicted :=
          if MAX_ITEMS ≤ s.cache_data.length then
            match (s.usage_order.map Prod.fst).min? with
            | some mf =>
                match dGet mf s.usage_order with
                | some (kd :: rest) =>
                    let uo :=
                      if rest.isEmpty then dPop mf s.usage_order
                      else dInsert mf rest s.usage_order
                    (LFUState.mk (dPop kd s.cache_data)
                      (dPop kd s.frequency) uo, some kd)
                | _ => (s, none)
            | none => (s, none)
          else (s, none)
        let s1 := evicted.1
        let b1 := (dGet 1 s1.usage_order).getD []
        (⟨dInsert k v s1.cache_data, dInsert k 1 s1.frequency,
          dInsert 1 (b1 ++ [k]) s1.usage_order⟩, evicted.2)
  | _, _ => (s, none)

/-- `LFUCache.get`: on a hit, promote the key's usage and return the value;
on a miss return `None` unchanged. -/
def LFUget (key : K) (s : LFUState K V) : LFUState K V × Option V :=
  if dMem key s.cache_data then (updateUsage key s, dGet key s.cache_data)
  else (s, none)

/-- One step of an `LFUCache` driven by an operation. -/
def LFUstep (s : LFUState K V) : Op K V → LFUState K V
  | .put key item => (LFUput key item s).1
  | .get key => (LFUget key s).1

/-- Run an `LFUCache` from the empty cache over a list of operations. -/
def runLFU (ops : List (Op K V)) : LFUState K V :=
  ops.foldl LFUstep LFUempty

/-- All keys appearing in the frequency buckets of `__usage_order`. -/
def allBucketKeys (uo : List (Nat × List K)) : List K :=
  (uo.map Prod.snd).flatten

/-! ## Lemmas about the ordered-dict primitives -/

theorem dGet_dInsert_self (k : K) (v : V) (l : List (K × V)) :
    dGet k (dInsert k v l) = some v := by
  induction l with
  | nil => simp [dGet, dInsert]
  | cons p rest ih =>
      obtain ⟨k', v'⟩ := p
      by_cases h : k = k' <;> simp [dGet, dInsert, h, ih]

theorem dGet_dInsert_ne {a k : K} (h : a ≠ k) (v : V) (l : List (K × V)) :
    dGet a (dInsert k v l) = dGet a l := by
  induction l with
  | nil => simp [dGet, dInsert, h]
  | cons p rest ih =>
      obtain ⟨k', v'⟩ := p
      by_cases hk : k = k'
      · subst hk; simp [dGet, dInsert, h]
      · by_cases ha : a = k' <;> simp [dGet, dInsert, hk, ha, ih]

theorem dGet_dPop_ne {a k : K} (h : a ≠ k) (l : List (K × V)) :
    dGet a (dPop k l) = dGet a l := by
  induction l with
  | nil => simp [dPop]
  | cons p rest ih =>
      obtain ⟨k', v'⟩ := p
      by_cases hk : k = k'
      · subst hk; simp [dGet, dPop, h]
      · by_cases ha : a = k' <;> simp [dGet, dPop, hk, ha, ih]

theorem keysOf_cons (p : K × V) (l : List (K × V)) :
    keysOf (p :: l) = p.1 :: keysOf l := rfl

theorem mem_keysOf_iff {k : K} {l : List (K × V)} :
    k ∈ keysOf l ↔ dMem k l = true := by
  induction l with
  | nil => simp [keysOf, dMem, dGet]
  | cons p rest ih =>
      obtain ⟨k', v'⟩ := p
      by_cases h : k = k' <;>
        simp [keysOf, dMem, dGet, h] at ih ⊢ <;> simp [ih]

theorem keysOf_dInsert_mem {k : K} (v : V) {l : List (K × V)}
    (h : dMem k l = true) : keysOf (dInsert k v l) = keysOf l := by
  induction l with
  | nil => simp [dMem, dGet] at h
  | cons p rest ih =>
      obtain ⟨k', v'⟩ := p
      by_cases hk : k = k'
      · subst hk; simp [keysOf, dInsert]
      · simp [dMem, dGet, hk] at h
        simp [keysOf, dInsert, hk] at ih ⊢
        exact ih h

theorem keysOf_dInsert_not_mem {k : K} (v : V) {l : List (K × V)}
    (h : dMem k l = false) : keysOf (dInsert k v l) = keysOf l ++ [k] := by
  induction l with
  | nil => simp [keysOf, dInsert]
  | cons p rest ih =>
      obtain ⟨k', v'⟩ := p
      by_cases hk : k = k'
      · subst hk; simp [dMem, dGet] at h
      · simp [dMem, dGet, hk] at h
        simp [keysOf, dInsert, hk] at ih ⊢
        exact ih (by simp [dMem, h])

theorem keysOf_dPop (k : K) (l : List (K × V)) :
    keysOf (dPop k l) = (keysOf l).erase k := by
  induction l with
  | nil => simp [dPop, keysOf]
  | cons p rest ih =>
      obtain ⟨k', v'⟩ := p
      by_cases hk : k = k'
      · subst hk; simp [dPop, keysOf, List.erase_cons]
      · have : (k' == k) = false := by
          simp [beq_iff_eq]; exact fun h => hk h.symm
        simp [dPop, keysOf, hk, List.erase_cons, this] at ih ⊢
        exact ih

theorem length_dInsert_mem {k : K} (v : V) {l : List (K × V)}
    (h : dMem k l = true) : (dInsert k v l).length = l.length := by
  have := keysOf_dInsert_mem (k := k) v h
  have h1 : (keysOf (dInsert k v l)).length = (keysOf l).length := by rw [this]
  simpa [keysOf] using h1

theorem length_dInsert_not_mem {k : K} (v : V) {l : List (K × V)}
    (h : dMem k l = false) : (dInsert k v l).length = l.length + 1 := by
  have := keysOf_dInsert_not_mem (k := k) v h
  have h1 : (keysOf (dInsert k v l)).length = (keysOf l).length + 1 := by
    rw [this]; simp
  simpa [keysOf] using h1

theorem dMem_dInsert_self (k : K) (v : V) (l : List (K × V)) :
    dMem k (dInsert k v l) = true := by
  simp [dMem, dGet_dInsert_self]

theorem dGet_mem {a : K} {b : V} {l : List (K × V)}
    (h : dGet a l = some b) : (a, b) ∈ l := by
  induction l with
  | nil => simp [dGet] at h
  | cons p rest ih =>
      obtain ⟨k', v'⟩ := p
      by_cases hk : a = k'
      · subst hk
        simp [dGet] at h
        simp [h]
      · simp [dGet, hk] at h
        simp [ih h]

theorem dGet_of_mem_keysOf {a : K} {l : List (K × V)} (h : a ∈ keysOf l) :
    ∃ b, dGet a l = some b := by
  rw [mem_keysOf_iff] at h
  simp [dMem, Option.isSome_iff_exists] at h
  exact h

theorem dGet_dPop_self {a : K} {l : List (K × V)}
    (nd : (keysOf l).Nodup) : dGet a (dPop a l) = none := by
  induction l with
  | nil => simp [dPop, dGet]
  | cons p rest ih =>
      obtain ⟨k', v'⟩ := p
      rw [keysOf_cons, List.nodup_cons] at nd
      by_cases hk : a = k'
      · subst hk
        have hd : dPop a ((a, v') :: rest) = rest := by simp [dPop]
        rw [hd]
        cases h : dGet a rest with
        | none => rfl
        | some b =>
            have : a ∈ keysOf rest :=
              List.mem_map_of_mem Prod.fst (dGet_mem h)
            exact absurd this nd.1
      · simp [dPop, dGet, hk]
        exact ih nd.2

theorem nodup_keysOf_dInsert {k : K} (v : V) {l : List (K × V)}
    (nd : (keysOf l).Nodup) : (keysOf (dInsert k v l)).Nodup := by
  cases h : dMem k l with
  | true => rw [keysOf_dInsert_mem v h]; exact nd
  | false =>
      rw [keysOf_dInsert_not_mem v h]
      refine List.Nodup.append nd (List.nodup_singleton k) ?_
      intro a ha hb
      simp at hb
      subst hb
      rw [mem_keysOf_iff, h] at ha
      exact Bool.noConfusion ha

theorem nodup_keysOf_dPop (k : K) {l : List (K × V)}
    (nd : (keysOf l).Nodup) : (keysOf (dPop k l)).Nodup := by
  rw [keysOf_dPop]; exact nd.erase k

theorem mem_of_mem_dPop {p : K × V} {k : K} {l : List (K × V)}
    (h : p ∈ dPop k l) : p ∈ l := by
  induction l with
  | nil => simp [dPop] at h
  | cons q rest ih =>
      obtain ⟨k', v'⟩ := q
      by_cases hk : k = k'
      · subst hk; simp [dPop] at h; simp [h]
      · simp [dPop, hk] at h
        rcases h with h | h
        · simp [h]
        · simp [ih h]

theorem mem_dInsert {p : K × V} {k : K} {v : V} {l : List (K × V)}
    (h : p ∈ dInsert k v l) : p ∈ l ∨ p = (k, v) := by
  induction l with
  | nil => simp [dInsert] at h; exact Or.inr h
  | cons q rest ih =>
      obtain ⟨k', v'⟩ := q
      by_cases hk : k = k'
      · subst hk
        simp [dInsert] at h
        rcases h with h | h
        · exact Or.inr (by simp [h])
        · exact Or.inl (by simp [h])
      · simp [dInsert, hk] at h
        rcases h with h | h
        · exact Or.inl (by simp [h])
        · rcases ih h with h' | h'
          · exact Or.inl (by simp [h'])
          · exact Or.inr h'

theorem eq_dropLast_append_of_getLast? {α : Type} {l : List α} {a : α}
    (h : l.getLast? = some a) : l = l.dropLast ++ [a] := by
  induction l with
  | nil => simp at h
  | cons x rest ih =>
      cases rest with
      | nil => simp at h; simp [h]
      | cons y t =>
          rw [List.getLast?_cons_cons] at h
          have := ih h
          simp [List.dropLast_cons₂]
          exact this

theorem getLast?_mem {α : Type} {l : List α} {a : α}
    (h : l.getLast? = some a) : a ∈ l := by
  rw [eq_dropLast_append_of_getLast? h]
  simp

theorem length_dPop_mem {k : K} {l : List (K × V)} (h : dMem k l = true) :
    (dPop k l).length + 1 = l.length := by
  have hk : k ∈ keysOf l := mem_keysOf_iff.mpr h
  have h1 : (keysOf (dPop k l)).length = (keysOf l).length - 1 := by
    rw [keysOf_dPop]; exact List.length_erase_of_mem hk
  have h2 : 1 ≤ (keysOf l).length := List.length_pos_of_mem hk
  have h3 : (keysOf l).length = l.length := by simp [keysOf]
  have h4 : (keysOf (dPop k l)).length = (dPop k l).length := by simp [keysOf]
  omega

theorem perm_erase_append_singleton {α : Type} [DecidableEq α] {l : List α}
    {a : α} (h : a ∈ l) : l.erase a ++ [a] ~ l :=
  (List.perm_append_singleton a _).trans (List.perm_cons_erase h).symm

theorem not_dMem_dPop {k kr : K} {l : List (K × V)}
    (h : dMem k l = false) : dMem k (dPop kr l) = false := by
  by_cases hk : k = kr
  · rw [← hk]
    cases hg : dGet k (dPop k l) with
    | none => simp [dMem, hg]
    | some b =>
        have h1 : (k, b) ∈ l := mem_of_mem_dPop (dGet_mem hg)
        have h2 : k ∈ keysOf l := List.mem_map_of_mem Prod.fst h1
        rw [mem_keysOf_iff, h] at h2
        exact Bool.noConfusion h2
  · simp [dMem, dGet_dPop_ne hk]
    simp [dMem] at h
    simp [h]

/-! ## The LIFO invariant -/

/-- Invariant of reachable `LIFOCache` states: keys of `cache_data` are
distinct, `__stack_keys` is a permutation of them (lockstep), and the size
bound holds. -/
structure LIFOInv (s : LIFOState K V) : Prop where
  nd : (keysOf s.cache_data).Nodup
  hp : s.stack_keys ~ keysOf s.cache_data
  size : s.cache_data.length ≤ MAX_ITEMS

theorem LIFOInv_empty : LIFOInv (LIFOempty : LIFOState K V) :=
  ⟨List.nodup_nil, List.Perm.refl [], by simp [LIFOempty, MAX_ITEMS]⟩

theorem LIFOInv_put (key : Option K) (item : Option V) {s : LIFOState K V}
    (h : LIFOInv s) : LIFOInv (LIFOput key item s).1 := by
  match key, item with
  | none, _ => exact h
  | some k, none => exact h
  | some k, some v =>
    by_cases hm : dMem k s.cache_data
    · have hk : k ∈ keysOf s.cache_data := mem_keysOf_iff.mpr hm
      have hks : k ∈ s.stack_keys := h.hp.mem_iff.mpr hk
      refine ⟨?_, ?_, ?_⟩ <;> simp only [LIFOput, hm, if_pos]
      · rw [keysOf_dInsert_mem v hm]; exact h.nd
      · rw [keysOf_dInsert_mem v hm]
        exact (perm_erase_append_singleton hks).trans h.hp
      · rw [length_dInsert_mem v hm]; exact h.size
    · by_cases hc : MAX_ITEMS ≤ s.cache_data.length
      · cases hl : s.stack_keys.getLast? with
        | none =>
            exfalso
            have h0 : s.stack_keys = [] := by
              cases hs : s.stack_keys with
              | nil => rfl
              | cons x t => rw [hs] at hl; simp [List.getLast?_eq_getLast] at hl
            have : keysOf s.cache_data = [] := by
              have := h.hp
              rw [h0] at this
              exact (List.Perm.nil_eq this).symm
            have : s.cache_data.length = 0 := by
              have hlen : (keysOf s.cache_data).length = 0 := by rw [this]; rfl
              simpa [keysOf] using hlen
            rw [this] at hc
            simp [MAX_ITEMS] at hc
        | some kr =>
            have hstep : (LIFOput (some k) (some v) s).1 =
                ⟨dInsert k v (dPop kr s.cache_data),
                  s.stack_keys.dropLast ++ [k]⟩ := by
              simp only [LIFOput, hm, hc, hl, if_neg, if_pos, Bool.false_eq_true,
                not_false_iff]
            have hkr : kr ∈ s.stack_keys := getLast?_mem hl
            have hkrc : kr ∈ keysOf s.cache_data := h.hp.mem_iff.mp hkr
            have hds : s.stack_keys = s.stack_keys.dropLast ++ [kr] :=
              eq_dropLast_append_of_getLast? hl
            have hnds : s.stack_keys.Nodup := h.hp.nodup_iff.mpr h.nd
            have hkrd : kr ∉ s.stack_keys.dropLast := by
              rw [hds] at hnds
              have := (List.nodup_append.mp hnds).2.2
              intro hmem
              exact this hmem (by simp)
            have herase : s.stack_keys.erase kr = s.stack_keys.dropLast := by
              conv_lhs => rw [hds]
              rw [List.erase_append_right _ hkrd]
              simp
            have hpd : s.stack_keys.dropLast ~ (keysOf s.cache_data).erase kr := by
              rw [← herase]
              exact h.hp.erase kr
            have hknp : dMem k (dPop kr s.cache_data) = false :=
              not_dMem_dPop (by simpa using hm)
            have hkeys : keysOf (dInsert k v (dPop kr s.cache_data)) =
                (keysOf s.cache_data).erase kr ++ [k] := by
              rw [keysOf_dInsert_not_mem v hknp, keysOf_dPop]
            rw [hstep]
            refine ⟨?_, ?_, ?_⟩
            · show (keysOf (dInsert k v (dPop kr s.cache_data))).Nodup
              rw [hkeys]
              refine List.Nodup.append (h.nd.erase kr) (List.nodup_singleton k) ?_
              intro a ha hb
              simp at hb
              subst hb
              have : a ∈ keysOf s.cache_data := List.mem_of_mem_erase ha
              rw [mem_keysOf_iff] at this
              rw [this] at hm
              exact hm rfl
            · show s.stack_keys.dropLast ++ [k] ~
                keysOf (dInsert k v (dPop kr s.cache_data))
              rw [hkeys]
              exact hpd.append_right [k]
            · show (dInsert k v (dPop kr s.cache_data)).length ≤ MAX_ITEMS
              have h1 := length_dInsert_not_mem v hknp
              have h2 := length_dPop_mem (l := s.cache_data)
                (mem_keysOf_iff.mp hkrc)
              have h3 := h.size
              omega
      · have hstep : (LIFOput (some k) (some v) s).1 =
            ⟨dInsert k v s.cache_data, s.stack_keys ++ [k]⟩ := by
          simp only [LIFOput, hm, hc, if_neg, Bool.false_eq_true, not_false_iff]
        have hmf : dMem k s.cache_data = false := by simpa using hm
        rw [hstep]
        refine ⟨?_, ?_, ?_⟩
        · exact nodup_keysOf_dInsert v h.nd
        · show s.stack_keys ++ [k] ~ keysOf (dInsert k v s.cache_data)
          rw [keysOf_dInsert_not_mem v hmf]
          exact h.hp.append_right [k]
        · show (dInsert k v s.cache_data).length ≤ MAX_ITEMS
          have h1 := length_dInsert_not_mem v hmf
          omega

theorem LIFOInv_step (op : Op K V) {s : LIFOState K V} (h : LIFOInv s) :
    LIFOInv (LIFOstep s op) := by
  cases op with
  | put key item => exact LIFOInv_put key item h
  | get key => exact h

theorem LIFOInv_run (ops : List (Op K V)) : LIFOInv (runLIFO ops) := by
  suffices h : ∀ (l : List (Op K V)) (s : LIFOState K V),
      LIFOInv s → LIFOInv (l.foldl LIFOstep s) by
    exact h ops LIFOempty LIFOInv_empty
  intro l
  induction l with
  | nil => intro s hs; exact hs
  | cons op rest ih => intro s hs; exact ih _ (LIFOInv_step op hs)

/-! ## The LRU / MRU invariant -/

/-- Invariant of reachable `LRUCache` and `MRUCache` states: keys of
`cache_data` are distinct, `__access_order` is a permutation of them
(lockstep), and the size bound holds. -/
structure LRUInv (s : LRUState K V) : Prop where
  nd : (keysOf s.cache_data).Nodup
  hp : s.access_order ~ keysOf s.cache_data
  size : s.cache_data.length ≤ MAX_ITEMS

theorem LRUInv_empty : LRUInv (LRUempty : LRUState K V) :=
  ⟨List.nodup_nil, List.Perm.refl [], by simp [LRUempty, MAX_ITEMS]⟩

theorem cache_nonempty_of_at_capacity {cd : List (K × V)}
    (hc : MAX_ITEMS ≤ cd.length) : keysOf cd ≠ [] := by
  intro h0
  have : cd.length = 0 := by
    have hlen : (keysOf cd).length = 0 := by rw [h0]; rfl
    simpa [keysOf] using hlen
  rw [this] at hc
  simp [MAX_ITEMS] at hc

theorem LRUInv_put (key : Option K) (item : Option V) {s : LRUState K V}
    (h : LRUInv s) : LRUInv (LRUput key item s).1 := by
  match key, item with
  | none, _ => exact h
  | some k, none => exact h
  | some k, some v =>
    by_cases hm : dMem k s.cache_data
    · have hk : k ∈ keysOf s.cache_data := mem_keysOf_iff.mpr hm
      have hks : k ∈ s.access_order := h.hp.mem_iff.mpr hk
      refine ⟨?_, ?_, ?_⟩ <;> simp only [LRUput, hm, if_pos]
      · rw [keysOf_dInsert_mem v hm]; exact h.nd
      · rw [keysOf_dInsert_mem v hm]
        exact (perm_erase_append_singleton hks).trans h.hp
      · rw [length_dInsert_mem v hm]; exact h.size
    · by_cases hc : MAX_ITEMS ≤ s.cache_data.length
      · cases ho : s.access_order with
        | nil =>
            exfalso
            have h0 : keysOf s.cache_data = [] := by
              have := h.hp
              rw [ho] at this
              exact (List.Perm.nil_eq this).symm
            exact cache_nonempty_of_at_capacity hc h0
        | cons lru rest =>
            have hstep : (LRUput (some k) (some v) s).1 =
                ⟨dInsert k v (dPop lru s.cache_data), rest ++ [k]⟩ := by
              simp only [LRUput, hm, hc, ho, if_neg, if_pos, Bool.false_eq_true,
                not_false_iff]
            have hlru : lru ∈ keysOf s.cache_data :=
              h.hp.mem_iff.mp (by rw [ho]; simp)
            have hpd : rest ~ (keysOf s.cache_data).erase lru := by
              have h1 : (lru :: rest).erase lru ~ (keysOf s.cache_data).erase lru := by
                rw [← ho]; exact h.hp.erase lru
              simpa using h1
            have hknp : dMem k (dPop lru s.cache_data) = false :=
              not_dMem_dPop (by simpa using hm)
            have hkeys : keysOf (dInsert k v (dPop lru s.cache_data)) =
                (keysOf s.cache_data).erase lru ++ [k] := by
              rw [keysOf_dInsert_not_mem v hknp, keysOf_dPop]
            rw [hstep]
            refine ⟨?_, ?_, ?_⟩
            · show (keysOf (dInsert k v (dPop lru s.cache_data))).Nodup
              rw [hkeys]
              refine List.Nodup.append (h.nd.erase lru) (List.nodup_singleton k) ?_
              intro a ha hb
              simp at hb
              subst hb
              have : a ∈ keysOf s.cache_data := List.mem_of_mem_erase ha
              rw [mem_keysOf_iff] at this
              rw [this] at hm
              exact hm rfl
            · show rest ++ [k] ~ keysOf (dInsert k v (dPop lru s.cache_data))
              rw [hkeys]
              exact hpd.append_right [k]
            · show (dInsert k v (dPop lru s.cache_data)).length ≤ MAX_ITEMS
              have h1 := length_dInsert_not_mem v hknp
              have h2 := length_dPop_mem (l := s.cache_data)
                (mem_keysOf_iff.mp hlru)
              have h3 := h.size
              omega
      · have hstep : (LRUput (some k) (some v) s).1 =
            ⟨dInsert k v s.cache_data, s.access_order ++ [k]⟩ := by
          simp only [LRUput, hm, hc, if_neg, Bool.false_eq_true, not_false_iff]
        have hmf : dMem k s.cache_data = false := by simpa using hm
        rw [hstep]
        refine ⟨?_, ?_, ?_⟩
        · exact nodup_keysOf_dInsert v h.nd
        · show s.access_order ++ [k] ~ keysOf (dInsert k v s.cache_data)
          rw [keysOf_dInsert_not_mem v hmf]
          exact h.hp.append_right [k]
        · show (dInsert k v s.cache_data).length ≤ MAX_ITEMS
          have h1 := length_dInsert_not_mem v hmf
          omega

theorem MRUInv_put (key : Option K) (item : Option V) {s : LRUState K V}
    (h : LRUInv s) : LRUInv (MRUput key item s).1 := by
  match key, item with
  | none, _ => exact h
  | some k, none => exact h
  | some k, some v =>
    by_cases hm : dMem k s.cache_data
    · have hk : k ∈ keysOf s.cache_data := mem_keysOf_iff.mpr hm
      have hks : k ∈ s.access_order := h.hp.mem_iff.mpr hk
      refine ⟨?_, ?_, ?_⟩ <;> simp only [MRUput, hm, if_pos]
      · rw [keysOf_dInsert_mem v hm]; exact h.nd
      · rw [keysOf_dInsert_mem v hm]
        exact (perm_erase_append_singleton hks).trans h.hp
      · rw [length_dInsert_mem v hm]; exact h.size
    · by_cases hc : MAX_ITEMS ≤ s.cache_data.length
      · cases hl : s.access_order.getLast? with
        | none =>
            exfalso
            have h0 : s.access_order = [] := by
              cases hs : s.access_order with
              | nil => rfl
              | cons x t => rw [hs] at hl; simp [List.getLast?_eq_getLast] at hl
            have h1 : keysOf s.cache_data = [] := by
              have := h.hp
              rw [h0] at this
              exact (List.Perm.nil_eq this).symm
            exact cache_nonempty_of_at_capacity hc h1
        | some mru =>
            have hstep : (MRUput (some k) (some v) s).1 =
                ⟨dInsert k v (dPop mru s.cache_data),
                  s.access_order.dropLast ++ [k]⟩ := by
              simp only [MRUput, hm, hc, hl, if_neg, if_pos, Bool.false_eq_true,
                not_false_iff]
            have hkr : mru ∈ s.access_order := getLast?_mem hl
            have hkrc : mru ∈ keysOf s.cache_data := h.hp.mem_iff.mp hkr
            have hds : s.access_order = s.access_order.dropLast ++ [mru] :=
              eq_dropLast_append_of_getLast? hl
            have hnds : s.access_order.Nodup := h.hp.nodup_iff.mpr h.nd
            have hkrd : mru ∉ s.access_order.dropLast := by
              rw [hds] at hnds
              have := (List.nodup_append.mp hnds).2.2
              intro hmem
              exact this hmem (by simp)
            have herase : s.access_order.erase mru = s.access_order.dropLast := by
              conv_lhs => rw [hds]
              rw [List.erase_append_right _ hkrd]
              simp
            have hpd : s.access_order.dropLast ~
                (keysOf s.cache_data).erase mru := by
              rw [← herase]
              exact h.hp.erase mru
            have hknp : dMem k (dPop mru s.cache_data) = false :=
              not_dMem_dPop (by simpa using hm)
            have hkeys : keysOf (dInsert k v (dPop mru s.cache_data)) =
                (keysOf s.cache_data).erase mru ++ [k] := by
              rw [keysOf_dInsert_not_mem v hknp, keysOf_dPop]
            rw [hstep]
            refine ⟨?_, ?_, ?_⟩
            · show (keysOf (dInsert k v (dPop mru s.cache_data))).Nodup
              rw [hkeys]
              refine List.Nodup.append (h.nd.erase mru) (List.nodup_singleton k) ?_
              intro a ha hb
              simp at hb
              subst hb
              have : a ∈ keysOf s.cache_data := List.mem_of_mem_erase ha
              rw [mem_keysOf_iff] at this
              rw [this] at hm
              exact hm rfl
            · show s.access_order.dropLast ++ [k] ~
                keysOf (dInsert k v (dPop mru s.cache_data))
              rw [hkeys]
              exact hpd.append_right [k]
            · show (dInsert k v (dPop mru s.cache_data)).length ≤ MAX_ITEMS
              have h1 := length_dInsert_not_mem v hknp
              have h2 := length_dPop_mem (l := s.cache_data)
                (mem_keysOf_iff.mp hkrc)
              have h3 := h.size
              omega
      · have hstep : (MRUput (some k) (some v) s).1 =
            ⟨dInsert k v s.cache_data, s.access_order ++ [k]⟩ := by
          simp only [MRUput, hm, hc, if_neg, Bool.false_eq_true, not_false_iff]
        have hmf : dMem k s.cache_data = false := by simpa using hm
        rw [hstep]
        refine ⟨?_, ?_, ?_⟩
        · exact nodup_keysOf_dInsert v h.nd
        · show s.access_order ++ [k] ~ keysOf (dInsert k v s.cache_data)
          rw [keysOf_dInsert_not_mem v hmf]
          exact h.hp.append_right [k]
        · show (dInsert k v s.cache_data).length ≤ MAX_ITEMS
          have h1 := length_dInsert_not_mem v hmf
          omega

theorem LRUInv_get (key : K) {s : LRUState K V} (h : LRUInv s) :
    LRUInv (LRUget key s).1 := by
  by_cases hm : dMem key s.cache_data
  · have hk : key ∈ keysOf s.cache_data := mem_keysOf_iff.mpr hm
    have hks : key ∈ s.access_order := h.hp.mem_iff.mpr hk
    refine ⟨?_, ?_, ?_⟩ <;> simp only [LRUget, hm, if_pos]
    · exact h.nd
    · exact (perm_erase_append_singleton hks).trans h.hp
    · exact h.size
  · simp only [LRUget, hm, Bool.false_eq_true, if_neg, not_false_iff]
    exact h

theorem LRUInv_step (op : Op K V) {s : LRUState K V} (h : LRUInv s) :
    LRUInv (LRUstep s op) := by
  cases op with
  | put key item => exact LRUInv_put key item h
  | get key => exact LRUInv_get key h

theorem MRUInv_step (op : Op K V) {s : LRUState K V} (h : LRUInv s) :
    LRUInv (MRUstep s op) := by
  cases op with
  | put key item => exact MRUInv_put key item h
  | get key => exact LRUInv_get key h

theorem LRUInv_run (ops : List (Op K V)) : LRUInv (runLRU ops) := by
  suffices h : ∀ (l : List (Op K V)) (s : LRUState K V),
      LRUInv s → LRUInv (l.foldl LRUstep s) by
    exact h ops LRUempty LRUInv_empty
  intro l
  induction l with
  | nil => intro s hs; exact hs
  | cons op rest ih => intro s hs; exact ih _ (LRUInv_step op hs)

theorem MRUInv_run (ops : List (Op K V)) : LRUInv (runMRU ops) := by
  suffices h : ∀ (l : List (Op K V)) (s : LRUState K V),
      LRUInv s → LRUInv (l.foldl MRUstep s) by
    exact h ops LRUempty LRUInv_empty
  intro l
  induction l with
  | nil => intro s hs; exact hs
  | cons op rest ih => intro s hs; exact ih _ (MRUInv_step op hs)

/-! ## The FIFO size invariant -/

theorem FIFO_size_put (key : Option K) (item : Option V) {s : List (K × V)}
    (h : s.length ≤ MAX_ITEMS) : (FIFOput key item s).1.length ≤ MAX_ITEMS := by
  match key, item with
  | none, _ => exact h
  | some k, none => exact h
  | some k, some v =>
    by_cases hcond : MAX_ITEMS ≤ s.length ∧ dMem k s = false
    · cases s with
      | nil => exact absurd hcond.1 (by simp [MAX_ITEMS])
      | cons p rest =>
          obtain ⟨ok, ov⟩ := p
          have hstep : (FIFOput (some k) (some v) ((ok, ov) :: rest)).1 =
              dInsert k v rest := by
            simp only [FIFOput]
            rw [if_pos hcond]
          rw [hstep]
          have hknr : dMem k rest = false := by
            have h2 := hcond.2
            simp [dMem, dGet] at h2
            by_cases he : k = ok
            · simp [he] at h2
            · simp [he] at h2
              simp [dMem, h2]
          have h1 := length_dInsert_not_mem v hknr
          simp at h
          omega
    · have hstep : (FIFOput (some k) (some v) s).1 = dInsert k v s := by
        simp only [FIFOput, hcond, if_neg, not_false_iff]
      rw [hstep]
      cases hm : dMem k s with
      | true => rw [length_dInsert_mem v hm]; exact h
      | false =>
          have h1 := length_dInsert_not_mem v hm
          have h2 : ¬ MAX_ITEMS ≤ s.length := fun hle => hcond ⟨hle, hm⟩
          omega

theorem FIFO_size_step (op : Op K V) {s : List (K × V)}
    (h : s.length ≤ MAX_ITEMS) : (FIFOstep s op).length ≤ MAX_ITEMS := by
  cases op with
  | put key item => exact FIFO_size_put key item h
  | get key => exact h

theorem FIFO_size_run (ops : List (Op K V)) :
    (runFIFO ops).length ≤ MAX_ITEMS := by
  suffices h : ∀ (l : List (Op K V)) (s : List (K × V)),
      s.length ≤ MAX_ITEMS → (l.foldl FIFOstep s).length ≤ MAX_ITEMS by
    exact h ops [] (by simp [MAX_ITEMS])
  intro l
  induction l with
  | nil => intro s hs; exact hs
  | cons op rest ih => intro s hs; exact ih _ (FIFO_size_step op hs)

/-! ## Splitting lemmas for the LFU frequency buckets -/

theorem dGet_split {a : K} {b : V} {l : List (K × V)}
    (h : dGet a l = some b) :
    ∃ pre post, l = pre ++ (a, b) :: post ∧ dMem a pre = false := by
  induction l with
  | nil => simp [dGet] at h
  | cons p rest ih =>
      obtain ⟨k', v'⟩ := p
      by_cases hk : a = k'
      · subst hk
        simp [dGet] at h
        exact ⟨[], rest, by simp [h], by simp [dMem, dGet]⟩
      · simp [dGet, hk] at h
        obtain ⟨pre, post, hsplit, hpre⟩ := ih h
        refine ⟨(k', v') :: pre, post, by simp [hsplit], ?_⟩
        simp [dMem, dGet, hk]
        simp [dMem] at hpre
        simp [hpre]

theorem dPop_append {a : K} {b : V} {pre post : List (K × V)}
    (h : dMem a pre = false) :
    dPop a (pre ++ (a, b) :: post) = pre ++ post := by
  induction pre with
  | nil => simp [dPop]
  | cons p rest ih =>
      obtain ⟨k', v'⟩ := p
      have hk : a ≠ k' := by
        intro he
        subst he
        simp [dMem, dGet] at h
      simp [dMem, dGet, hk] at h
      simp [dPop, hk]
      exact ih (by simp [dMem, h])

theorem dInsert_append {a : K} {b v : V} {pre post : List (K × V)}
    (h : dMem a pre = false) :
    dInsert a v (pre ++ (a, b) :: post) = pre ++ (a, v) :: post := by
  induction pre with
  | nil => simp [dInsert]
  | cons p rest ih =>
      obtain ⟨k', v'⟩ := p
      have hk : a ≠ k' := by
        intro he
        subst he
        simp [dMem, dGet] at h
      simp [dMem, dGet, hk] at h
      simp [dInsert, hk]
      exact ih (by simp [dMem, h])

theorem dInsert_not_mem {a : K} (v : V) {l : List (K × V)}
    (h : dMem a l = false) : dInsert a v l = l ++ [(a, v)] := by
  induction l with
  | nil => simp [dInsert]
  | cons p rest ih =>
      obtain ⟨k', v'⟩ := p
      have hk : a ≠ k' := by
        intro he
        subst he
        simp [dMem, dGet] at h
      simp [dMem, dGet, hk] at h
      simp [dInsert, hk]
      exact ih (by simp [dMem, h])

theorem allBucketKeys_append (l1 l2 : List (Nat × List K)) :
    allBucketKeys (l1 ++ l2) = allBucketKeys l1 ++ allBucketKeys l2 := by
  simp [allBucketKeys]

theorem allBucketKeys_cons (p : Nat × List K) (l : List (Nat × List K)) :
    allBucketKeys (p :: l) = p.2 ++ allBucketKeys l := by
  simp [allBucketKeys]

theorem eq_singleton_of_erase_eq_nil {α : Type} [DecidableEq α]
    {b : List α} {k : α} (hk : k ∈ b) (he : b.erase k = []) : b = [k] := by
  cases b with
  | nil => simp at hk
  | cons x xs =>
      by_cases hx : x = k
      · subst hx
        rw [List.erase_cons_head] at he
        rw [he]
      · rw [List.erase_cons_tail] at he
        · exact absurd he (by simp)
        · simp [hx]

theorem mem_allBucketKeys_of_mem {p : Nat × List K} {uo : List (Nat × List K)}
    (hp : p ∈ uo) {k : K} (hk : k ∈ p.2) : k ∈ allBucketKeys uo := by
  simp [allBucketKeys, List.mem_flatten]
  exact ⟨p.2, ⟨p.1, by simpa using hp⟩, hk⟩

theorem allBucketKeys_promote (uo : List (Nat × List K)) (g : Nat) (k : K) :
    allBucketKeys (dInsert g (((dGet g uo).getD []) ++ [k]) uo) ~
      k :: allBucketKeys uo := by
  cases hg : dGet g uo with
  | none =>
      have hm : dMem g uo = false := by simp [dMem, hg]
      simp only [Option.getD_none, List.nil_append]
      rw [dInsert_not_mem _ hm, allBucketKeys_append]
      have h1 : allBucketKeys [(g, [k])] = [k] := by
        simp [allBucketKeys]
      rw [h1]
      exact List.perm_append_singleton k _
  | some nb =>
      obtain ⟨pre, post, hsplit, hpre⟩ := dGet_split hg
      simp only [Option.getD_some]
      rw [hsplit, dInsert_append hpre]
      rw [allBucketKeys_append, allBucketKeys_cons,
          allBucketKeys_append, allBucketKeys_cons]
      calc allBucketKeys pre ++ ((nb ++ [k]) ++ allBucketKeys post)
          = (allBucketKeys pre ++ nb) ++ (k :: allBucketKeys post) := by simp
        _ ~ k :: ((allBucketKeys pre ++ nb) ++ allBucketKeys post) :=
            List.perm_middle
        _ = k :: (allBucketKeys pre ++ (nb ++ allBucketKeys post)) := by simp

theorem allBucketKeys_demote {uo : List (Nat × List K)} {f : Nat}
    {b : List K} {k : K} (hg : dGet f uo = some b) (hk : k ∈ b) :
    allBucketKeys uo ~
      k :: allBucketKeys
        (if (b.erase k).isEmpty then dPop f uo
         else dInsert f (b.erase k) uo) := by
  obtain ⟨pre, post, hsplit, hpre⟩ := dGet_split hg
  by_cases he : (b.erase k).isEmpty
  · rw [if_pos he]
    have hb : b = [k] :=
      eq_singleton_of_erase_eq_nil hk (by simpa using he)
    rw [hsplit, dPop_append hpre, hb]
    rw [allBucketKeys_append, allBucketKeys_cons, allBucketKeys_append]
    calc allBucketKeys pre ++ (([k] : List K) ++ allBucketKeys post)
        = allBucketKeys pre ++ (k :: allBucketKeys post) := by simp
      _ ~ k :: (allBucketKeys pre ++ allBucketKeys post) := List.perm_middle
  · rw [if_neg he]
    rw [hsplit, dInsert_append hpre]
    rw [allBucketKeys_append, allBucketKeys_cons,
        allBucketKeys_append, allBucketKeys_cons]
    have hbp : b ~ k :: b.erase k := List.perm_cons_erase hk
    calc allBucketKeys pre ++ (b ++ allBucketKeys post)
        ~ allBucketKeys pre ++ ((k :: b.erase k) ++ allBucketKeys post) :=
          ((hbp.append_right _).append_left _)
      _ = allBucketKeys pre ++ (k :: (b.erase k ++ allBucketKeys post)) := by
          simp
      _ ~ k :: (allBucketKeys pre ++ (b.erase k ++ allBucketKeys post)) :=
          List.perm_middle

/-! ## The LFU invariant -/

/-- Invariant of reachable `LFUCache` states: keys of `cache_data` are
distinct; the keys of `__frequency` and the keys collected over all
`__usage_order` buckets are each a permutation of the stored keys
(lockstep); every key's frequency points at a bucket containing it; all
buckets are nonempty; and the size bound holds. -/
structure LFUInv (s : LFUState K V) : Prop where
  nd : (keysOf s.cache_data).Nodup
  hpf : keysOf s.frequency ~ keysOf s.cache_data
  hpb : allBucketKeys s.usage_order ~ keysOf s.cache_data
  fb : ∀ k f, dGet k s.frequency = some f →
        ∃ b, dGet f s.usage_order = some b ∧ k ∈ b
  ne : ∀ p ∈ s.usage_order, p.2 ≠ []
  size : s.cache_data.length ≤ MAX_ITEMS

theorem LFUInv_empty : LFUInv (LFUempty : LFUState K V) := by
  refine ⟨List.nodup_nil, List.Perm.refl [], List.Perm.refl [], ?_, ?_, ?_⟩
  · intro k f hf
    simp [LFUempty, dGet] at hf
  · intro p hp
    simp [LFUempty] at hp
  · simp [LFUempty, MAX_ITEMS]

theorem updateUsage_cache_data (k : K) (s : LFUState K V) :
    (updateUsage k s).cache_data = s.cache_data := by
  cases hf : dGet k s.frequency <;> simp [updateUsage, hf]

theorem LFUInv_updateUsage (k : K) {s : LFUState K V}
    (h : LFUInv s) (hm : dMem k s.cache_data = true) :
    LFUInv (updateUsage k s) := by
  have hkc : k ∈ keysOf s.cache_data := mem_keysOf_iff.mpr hm
  have hkf : k ∈ keysOf s.frequency := h.hpf.mem_iff.mpr hkc
  obtain ⟨f, hf⟩ := dGet_of_mem_keysOf hkf
  obtain ⟨b, hgb, hkb⟩ := h.fb k f hf
  have hmemf : dMem k s.frequency = true := by simp [dMem, hf]
  have hstep : updateUsage k s =
      ⟨s.cache_data, dInsert k (f + 1) s.frequency,
        dInsert (f + 1)
          (((dGet (f + 1)
              (if (b.erase k).isEmpty then dPop f s.usage_order
               else dInsert f (b.erase k) s.usage_order)).getD []) ++ [k])
          (if (b.erase k).isEmpty then dPop f s.usage_order
           else dInsert f (b.erase k) s.usage_order)⟩ := by
    simp only [updateUsage, hf, hgb, Option.getD_some]
  rw [hstep]
  have hdemote := allBucketKeys_demote hgb hkb
  have hpromote := allBucketKeys_promote
    (if (b.erase k).isEmpty then dPop f s.usage_order
     else dInsert f (b.erase k) s.usage_order) (f + 1) k
  refine ⟨h.nd, ?_, ?_, ?_, ?_, h.size⟩
  · show keysOf (dInsert k (f + 1) s.frequency) ~ keysOf s.cache_data
    rw [keysOf_dInsert_mem _ hmemf]
    exact h.hpf
  · refine hpromote.trans ?_
    exact hdemote.symm.trans h.hpb
  · intro k' f' hf'
    by_cases hk' : k' = k
    · subst hk'
      rw [dGet_dInsert_self] at hf'
      cases hf'
      refine ⟨_, dGet_dInsert_self _ _ _, ?_⟩
      simp
    · rw [dGet_dInsert_ne hk'] at hf'
      obtain ⟨b₀, hb₀, hk₀⟩ := h.fb k' f' hf'
      have hmid : ∃ b₁,
          dGet f' (if (b.erase k).isEmpty then dPop f s.usage_order
            else dInsert f (b.erase k) s.usage_order) = some b₁ ∧
          k' ∈ b₁ := by
        by_cases hff : f' = f
        · subst hff
          have hbe : b₀ = b := by rw [hb₀] at hgb; exact (Option.some_inj.mp hgb)
          subst hbe
          by_cases he : (b₀.erase k).isEmpty
          · exfalso
            have : b₀ = [k] :=
              eq_singleton_of_erase_eq_nil hkb (by simpa using he)
            rw [this] at hk₀
            simp at hk₀
            exact hk' hk₀
          · rw [if_neg he]
            exact ⟨b₀.erase k, dGet_dInsert_self _ _ _,
              (List.mem_erase_of_ne hk').mpr hk₀⟩
        · by_cases he : (b.erase k).isEmpty
          · rw [if_pos he, dGet_dPop_ne hff]
            exact ⟨b₀, hb₀, hk₀⟩
          · rw [if_neg he, dGet_dInsert_ne hff]
            exact ⟨b₀, hb₀, hk₀⟩
      obtain ⟨b₁, hb₁, hk₁⟩ := hmid
      by_cases hf1 : f' = f + 1
      · subst hf1
        refine ⟨_, dGet_dInsert_self _ _ _, ?_⟩
        rw [hb₁]
        simp [hk₁]
      · rw [dGet_dInsert_ne hf1]
        exact ⟨b₁, hb₁, hk₁⟩
  · intro p hp
    rcases mem_dInsert hp with hp' | hp'
    · by_cases he : (b.erase k).isEmpty
      · rw [if_pos he] at hp'
        exact h.ne p (mem_of_mem_dPop hp')
      · rw [if_neg he] at hp'
        rcases mem_dInsert hp' with hp'' | hp''
        · exact h.ne p hp''
        · rw [hp'']
          simpa using he
    · rw [hp']
      simp

/-- Inserting a fresh key at frequency 1 (the tail of `LFUCache.put`'s
miss path) preserves the invariant, provided one slot is free. -/
theorem LFUInv_insert_new (k : K) (v : V) {cd : List (K × V)}
    {freq : List (K × Nat)} {uo : List (Nat × List K)}
    (nd : (keysOf cd).Nodup) (hpf : keysOf freq ~ keysOf cd)
    (hpb : allBucketKeys uo ~ keysOf cd)
    (fb : ∀ k' f', dGet k' freq = some f' →
      ∃ b, dGet f' uo = some b ∧ k' ∈ b)
    (ne : ∀ p ∈ uo, p.2 ≠ [])
    (hsize : cd.length + 1 ≤ MAX_ITEMS) (hm : dMem k cd = false) :
    LFUInv ⟨dInsert k v cd, dInsert k 1 freq,
      dInsert 1 (((dGet 1 uo).getD []) ++ [k]) uo⟩ := by
  have hkc : k ∉ keysOf cd := by
    intro hk
    rw [mem_keysOf_iff, hm] at hk
    exact Bool.noConfusion hk
  have hmf : dMem k freq = false := by
    cases hmf : dMem k freq with
    | false => rfl
    | true => exact absurd (hpf.mem_iff.mp (mem_keysOf_iff.mpr hmf)) hkc
  have hkeys : keysOf (dInsert k v cd) = keysOf cd ++ [k] :=
    keysOf_dInsert_not_mem v hm
  have hpromote := allBucketKeys_promote uo 1 k
  refine ⟨?_, ?_, ?_, ?_, ?_, ?_⟩
  · rw [hkeys]
    exact List.Nodup.append nd (List.nodup_singleton k)
      (fun a ha hb => by simp at hb; subst hb; exact hkc ha)
  · show keysOf (dInsert k 1 freq) ~ keysOf (dInsert k v cd)
    rw [hkeys, keysOf_dInsert_not_mem _ hmf]
    exact hpf.append_right [k]
  · show allBucketKeys (dInsert 1 (((dGet 1 uo).getD []) ++ [k]) uo) ~
      keysOf (dInsert k v cd)
    rw [hkeys]
    refine hpromote.trans ?_
    refine ((hpb.cons k).trans ?_)
    exact (List.perm_append_singleton k (keysOf cd)).symm
  · intro k' f' hf'
    by_cases hk' : k' = k
    · subst hk'
      rw [dGet_dInsert_self] at hf'
      cases hf'
      refine ⟨_, dGet_dInsert_self _ _ _, ?_⟩
      simp
    · rw [dGet_dInsert_ne hk'] at hf'
      obtain ⟨b₀, hb₀, hk₀⟩ := fb k' f' hf'
      by_cases hf1 : f' = 1
      · subst hf1
        refine ⟨_, dGet_dInsert_self _ _ _, ?_⟩
        rw [hb₀]
        simp [hk₀]
      · rw [dGet_dInsert_ne hf1]
        exact ⟨b₀, hb₀, hk₀⟩
  · intro p hp
    rcases mem_dInsert hp with hp' | hp'
    · exact ne p hp'
    · rw [hp']
      simp
  · show (dInsert k v cd).length ≤ MAX_ITEMS
    rw [length_dInsert_not_mem v hm]
    exact hsize

theorem LFUInv_put (key : Option K) (item : Option V) {s : LFUState K V}
    (h : LFUInv s) : LFUInv (LFUput key item s).1 := by
  match key, item with
  | none, _ => exact h
  | some k, none => exact h
  | some k, some v =>
    by_cases hm : dMem k s.cache_data
    · have hstep : (LFUput (some k) (some v) s).1 =
          updateUsage k ⟨dInsert k v s.cache_data, s.frequency,
            s.usage_order⟩ := by
        simp only [LFUput, hm, if_pos]
      rw [hstep]
      have hkeys := keysOf_dInsert_mem v hm
      have hmid : LFUInv ⟨dInsert k v s.cache_data, s.frequency,
          s.usage_order⟩ := by
        refine ⟨?_, ?_, ?_, h.fb, h.ne, ?_⟩
        · show (keysOf (dInsert k v s.cache_data)).Nodup
          rw [hkeys]; exact h.nd
        · show keysOf s.frequency ~ keysOf (dInsert k v s.cache_data)
          rw [hkeys]; exact h.hpf
        · show allBucketKeys s.usage_order ~ keysOf (dInsert k v s.cache_data)
          rw [hkeys]; exact h.hpb
        · show (dInsert k v s.cache_data).length ≤ MAX_ITEMS
          rw [length_dInsert_mem v hm]; exact h.size
      exact LFUInv_updateUsage k hmid (dMem_dInsert_self k v s.cache_data)
    · have hmf : dMem k s.cache_data = false := by simpa using hm
      by_cases hc : MAX_ITEMS ≤ s.cache_data.length
      · -- eviction path
        have hkeys_ne : keysOf s.cache_data ≠ [] :=
          cache_nonempty_of_at_capacity hc
        obtain ⟨mf, hmin⟩ : ∃ mf, (s.usage_order.map Prod.fst).min? = some mf := by
          cases huo : s.usage_order with
          | nil =>
              exfalso
              apply hkeys_ne
              have hb0 : allBucketKeys s.usage_order = [] := by
                rw [huo]; rfl
              have := h.hpb
              rw [hb0] at this
              exact (List.Perm.nil_eq this).symm
          | cons p rest => exact ⟨_, rfl⟩
        have hmf_mem : mf ∈ keysOf s.usage_order :=
          List.min?_mem (fun a b => min_choice a b) hmin
        obtain ⟨bb, hbb⟩ := dGet_of_mem_keysOf hmf_mem
        have hbne : bb ≠ [] := h.ne _ (dGet_mem hbb)
        obtain ⟨kd, rest, hbb'⟩ : ∃ kd rest, bb = kd :: rest := by
          cases bb with
          | nil => exact absurd rfl hbne
          | cons x xs => exact ⟨x, xs, rfl⟩
        subst hbb'
        have hstep : (LFUput (some k) (some v) s).1 =
            ⟨dInsert k v (dPop kd s.cache_data),
             dInsert k 1 (dPop kd s.frequency),
             dInsert 1
               (((dGet 1
                   (if rest.isEmpty then dPop mf s.usage_order
                    else dInsert mf rest s.usage_order)).getD []) ++ [k])
               (if rest.isEmpty then dPop mf s.usage_order
                else dInsert mf rest s.usage_order)⟩ := by
          simp only [LFUput, hm, hc, hmin, hbb, if_pos, if_neg,
            Bool.false_eq_true, not_false_iff]
        rw [hstep]
        -- facts about the discarded key
        have hkd_ab : kd ∈ allBucketKeys s.usage_order :=
          mem_allBucketKeys_of_mem (dGet_mem hbb) (by simp)
        have hkd_cd : kd ∈ keysOf s.cache_data := h.hpb.mem_iff.mp hkd_ab
        have hndf : (keysOf s.frequency).Nodup := h.hpf.nodup_iff.mpr h.nd
        -- the demotion of kd out of the minimum bucket
        have hdemote := allBucketKeys_demote hbb (by simp : kd ∈ kd :: rest)
        have herase : (kd :: rest).erase kd = rest := List.erase_cons_head kd rest
        rw [herase] at hdemote
        -- bucket-union permutation for the intermediate state
        have hpb1 : allBucketKeys
            (if rest.isEmpty then dPop mf s.usage_order
             else dInsert mf rest s.usage_order) ~
            keysOf (dPop kd s.cache_data) := by
          rw [keysOf_dPop]
          have h1 : kd :: allBucketKeys
              (if rest.isEmpty then dPop mf s.usage_order
               else dInsert mf rest s.usage_order) ~ keysOf s.cache_data :=
            hdemote.symm.trans h.hpb
          exact (List.cons_perm_iff_perm_erase.mp h1).2
        refine LFUInv_insert_new k v ?_ ?_ hpb1 ?_ ?_ ?_ ?_
        · exact nodup_keysOf_dPop kd h.nd
        · show keysOf (dPop kd s.frequency) ~ keysOf (dPop kd s.cache_data)
          rw [keysOf_dPop, keysOf_dPop]
          exact h.hpf.erase kd
        · intro k' f' hf'
          by_cases hk' : k' = kd
          · subst hk'
            rw [dGet_dPop_self hndf] at hf'
            exact Option.noConfusion hf'
          · rw [dGet_dPop_ne hk'] at hf'
            obtain ⟨b₀, hb₀, hk₀⟩ := h.fb k' f' hf'
            by_cases hff : f' = mf
            · subst hff
              have hbe : b₀ = kd :: rest := by
                rw [hb₀] at hbb
                exact (Option.some_inj.mp hbb)
              subst hbe
              have hk₀' : k' ∈ rest := by
                rcases List.mem_cons.mp hk₀ with h' | h'
                · exact absurd h' hk'
                · exact h'
              have hre : rest.isEmpty = false := by
                cases rest with
                | nil => simp at hk₀'
                | cons x xs => rfl
              rw [hre]
              simp only [Bool.false_eq_true, if_neg, not_false_iff]
              exact ⟨rest, dGet_dInsert_self _ _ _, hk₀'⟩
            · by_cases he : rest.isEmpty
              · rw [if_pos he, dGet_dPop_ne hff]
                exact ⟨b₀, hb₀, hk₀⟩
              · rw [if_neg he, dGet_dInsert_ne hff]
                exact ⟨b₀, hb₀, hk₀⟩
        · intro p hp
          by_cases he : rest.isEmpty
          · rw [if_pos he] at hp
            exact h.ne p (mem_of_mem_dPop hp)
          · rw [if_neg he] at hp
            rcases mem_dInsert hp with hp' | hp'
            · exact h.ne p hp'
            · rw [hp']
              simpa using he
        · have h1 := length_dPop_mem (l := s.cache_data)
            (mem_keysOf_iff.mp hkd_cd)
          have h2 := h.size
          omega
        · exact not_dMem_dPop hmf
      · -- free slot: plain insertion at frequency 1
        have hstep : (LFUput (some k) (some v) s).1 =
            ⟨dInsert k v s.cache_data, dInsert k 1 s.frequency,
             dInsert 1 (((dGet 1 s.usage_order).getD []) ++ [k])
               s.usage_order⟩ := by
          simp only [LFUput, hm, hc, if_neg, Bool.false_eq_true, not_false_iff]
        rw [hstep]
        refine LFUInv_insert_new k v h.nd h.hpf h.hpb h.fb h.ne ?_ hmf
        omega

theorem LFUInv_get (key : K) {s : LFUState K V} (h : LFUInv s) :
    LFUInv (LFUget key s).1 := by
  by_cases hm : dMem key s.cache_data
  · have hstep : (LFUget key s).1 = updateUsage key s := by
      simp only [LFUget, hm, if_pos]
    rw [hstep]
    exact LFUInv_updateUsage key h hm
  · have hstep : (LFUget key s).1 = s := by
      simp only [LFUget, hm, Bool.false_eq_true, if_neg, not_false_iff]
    rw [hstep]
    exact h

theorem LFUInv_step (op : Op K V) {s : LFUState K V} (h : LFUInv s) :
    LFUInv (LFUstep s op) := by
  cases op with
  | put key item => exact LFUInv_put key item h
  | get key => exact LFUInv_get key h

theorem LFUInv_run (ops : List (Op K V)) : LFUInv (runLFU ops) := by
  suffices h : ∀ (l : List (Op K V)) (s : LFUState K V),
      LFUInv s → LFUInv (l.foldl LFUstep s) by
    exact h ops LFUempty LFUInv_empty
  intro l
  induction l with
  | nil => intro s hs; exact hs
  | cons op rest ih => intro s hs; exact ih _ (LFUInv_step op hs)

/-! ## Behaviour of `put` on a key that is (or becomes) present -/

theorem FIFOput_update {k : K} (v : V) {s : List (K × V)}
    (hm : dMem k s = true) :
    FIFOput (some k) (some v) s = (dInsert k v s, none) := by
  have hcond : ¬ (MAX_ITEMS ≤ s.length ∧ dMem k s = false) := by
    rintro ⟨-, hf⟩
    rw [hm] at hf
    exact Bool.noConfusion hf
  simp only [FIFOput]
  rw [if_neg hcond]

theorem LIFOput_update {k : K} (v : V) {s : LIFOState K V}
    (hm : dMem k s.cache_data = true) :
    LIFOput (some k) (some v) s =
      (⟨dInsert k v s.cache_data, s.stack_keys.erase k ++ [k]⟩, none) := by
  simp only [LIFOput, hm, if_pos]

theorem LRUput_update {k : K} (v : V) {s : LRUState K V}
    (hm : dMem k s.cache_data = true) :
    LRUput (some k) (some v) s =
      (⟨dInsert k v s.cache_data, s.access_order.erase k ++ [k]⟩, none) := by
  simp only [LRUput, hm, if_pos]

theorem MRUput_update {k : K} (v : V) {s : LRUState K V}
    (hm : dMem k s.cache_data = true) :
    MRUput (some k) (some v) s =
      (⟨dInsert k v s.cache_data, s.access_order.erase k ++ [k]⟩, none) := by
  simp only [MRUput, hm, if_pos]

theorem LFUput_update {k : K} (v : V) {s : LFUState K V}
    (hm : dMem k s.cache_data = true) :
    LFUput (some k) (some v) s =
      (updateUsage k ⟨dInsert k v s.cache_data, s.frequency,
        s.usage_order⟩, none) := by
  simp only [LFUput, hm, if_pos]

theorem FIFOput_mem_self (k : K) (v : V) (s : List (K × V)) :
    dMem k (FIFOput (some k) (some v) s).1 = true := by
  by_cases hcond : MAX_ITEMS ≤ s.length ∧ dMem k s = false
  · cases s with
    | nil =>
        simp only [FIFOput]
        rw [if_pos hcond]
        simp [dMem, dGet]
    | cons p rest =>
        obtain ⟨ok, ov⟩ := p
        simp only [FIFOput]
        rw [if_pos hcond]
        exact dMem_dInsert_self k v rest
  · simp only [FIFOput]
    rw [if_neg hcond]
    exact dMem_dInsert_self k v s

theorem LIFOput_mem_self (k : K) (v : V) (s : LIFOState K V) :
    dMem k (LIFOput (some k) (some v) s).1.cache_data = true := by
  by_cases hm : dMem k s.cache_data
  · rw [LIFOput_update v hm]
    exact dMem_dInsert_self k v s.cache_data
  · by_cases hc : MAX_ITEMS ≤ s.cache_data.length
    · cases hl : s.stack_keys.getLast? with
      | none =>
          simp only [LIFOput, hm, hc, hl, Bool.false_eq_true, if_neg, if_pos,
            not_false_iff]
          exact dMem_dInsert_self k v s.cache_data
      | some kr =>
          simp only [LIFOput, hm, hc, hl, Bool.false_eq_true, if_neg, if_pos,
            not_false_iff]
          exact dMem_dInsert_self k v (dPop kr s.cache_data)
    · simp only [LIFOput, hm, hc, Bool.false_eq_true, if_neg, not_false_iff]
      exact dMem_dInsert_self k v s.cache_data

theorem LRUput_mem_self (k : K) (v : V) (s : LRUState K V) :
    dMem k (LRUput (some k) (some v) s).1.cache_data = true := by
  by_cases hm : dMem k s.cache_data
  · rw [LRUput_update v hm]
    exact dMem_dInsert_self k v s.cache_data
  · by_cases hc : MAX_ITEMS ≤ s.cache_data.length
    · cases ho : s.access_order with
      | nil =>
          simp only [LRUput, hm, hc, ho, Bool.false_eq_true, if_neg, if_pos,
            not_false_iff]
          exact dMem_dInsert_self k v s.cache_data
      | cons lru rest =>
          simp only [LRUput, hm, hc, ho, Bool.false_eq_true, if_neg, if_pos,
            not_false_iff]
          exact dMem_dInsert_self k v (dPop lru s.cache_data)
    · simp only [LRUput, hm, hc, Bool.false_eq_true, if_neg, not_false_iff]
      exact dMem_dInsert_self k v s.cache_data

theorem MRUput_mem_self (k : K) (v : V) (s : LRUState K V) :
    dMem k (MRUput (some k) (some v) s).1.cache_data = true := by
  by_cases hm : dMem k s.cache_data
  · rw [MRUput_update v hm]
    exact dMem_dInsert_self k v s.cache_data
  · by_cases hc : MAX_ITEMS ≤ s.cache_data.length
    · cases hl : s.access_order.getLast? with
      | none =>
          simp only [MRUput, hm, hc, hl, Bool.false_eq_true, if_neg, if_pos,
            not_false_iff]
          exact dMem_dInsert_self k v s.cache_data
      | some mru =>
          simp only [MRUput, hm, hc, hl, Bool.false_eq_true, if_neg, if_pos,
            not_false_iff]
          exact dMem_dInsert_self k v (dPop mru s.cache_data)
    · simp only [MRUput, hm, hc, Bool.false_eq_true, if_neg, not_false_iff]
      exact dMem_dInsert_self k v s.cache_data

theorem LFUput_cache_data_miss (k : K) (v : V) {s : LFUState K V}
    (hm : dMem k s.cache_data = false) :
    ∃ cd', (LFUput (some k) (some v) s).1.cache_data = dInsert k v cd' := by
  simp only [LFUput, hm, Bool.false_eq_true, if_neg, not_false_iff]
  exact ⟨_, rfl⟩

theorem LFUput_mem_self (k : K) (v : V) (s : LFUState K V) :
    dMem k (LFUput (some k) (some v) s).1.cache_data = true := by
  by_cases hm : dMem k s.cache_data
  · rw [LFUput_update v hm, updateUsage_cache_data]
    exact dMem_dInsert_self k v s.cache_data
  · obtain ⟨cd', hcd'⟩ := LFUput_cache_data_miss k v (by simpa using hm)
    rw [hcd']
    exact dMem_dInsert_self k v cd'

/-! ## Claim theorems -/

/-- C1: for every one of the five eviction policies (FIFO, LIFO, LRU, MRU,
LFU), starting from an empty cache, after every sequence of `put` and
`get` operations (hence after every completed `put`) the number of stored
entries is at most `MAX_ITEMS` (= 4). -/
theorem C1_capacity_bound (ops : List (Op K V)) :
    (runFIFO ops).length ≤ MAX_ITEMS ∧
    (runLIFO ops).cache_data.length ≤ MAX_ITEMS ∧
    (runLRU ops).cache_data.length ≤ MAX_ITEMS ∧
    (runMRU ops).cache_data.length ≤ MAX_ITEMS ∧
    (runLFU ops).cache_data.length ≤ MAX_ITEMS :=
  ⟨FIFO_size_run ops, (LIFOInv_run ops).size, (LRUInv_run ops).size,
   (MRUInv_run ops).size, (LFUInv_run ops).size⟩

/-- C8: for every policy with auxiliary tracking state and every reachable
state, the keys held in the auxiliary structures (LIFO's stack, LRU/MRU's
access-order list, LFU's frequency map and the union of its frequency
buckets) are exactly the keys of the store. -/
theorem C8_lockstep (ops : List (Op K V)) (k : K) :
    (k ∈ (runLIFO ops).stack_keys ↔
      dMem k (runLIFO ops).cache_data = true) ∧
    (k ∈ (runLRU ops).access_order ↔
      dMem k (runLRU ops).cache_data = true) ∧
    (k ∈ (runMRU ops).access_order ↔
      dMem k (runMRU ops).cache_data = true) ∧
    (k ∈ keysOf (runLFU ops).frequency ↔
      dMem k (runLFU ops).cache_data = true) ∧
    (k ∈ allBucketKeys (runLFU ops).usage_order ↔
      dMem k (runLFU ops).cache_data = true) := by
  refine ⟨?_, ?_, ?_, ?_, ?_⟩
  · rw [← mem_keysOf_iff]
    exact (LIFOInv_run ops).hp.mem_iff
  · rw [← mem_keysOf_iff]
    exact (LRUInv_run ops).hp.mem_iff
  · rw [← mem_keysOf_iff]
    exact (MRUInv_run ops).hp.mem_iff
  · rw [← mem_keysOf_iff]
    exact (LFUInv_run ops).hpf.mem_iff
  · rw [← mem_keysOf_iff]
    exact (LFUInv_run ops).hpb.mem_iff

/-- C3: for every policy, a `put` with a `None` key or a `None` value
leaves the cache (store and all auxiliary tracking state) completely
unchanged, evicts nothing, and raises no error. -/
theorem C3_put_none_noop (key : Option K) (item : Option V)
    (h : key = none ∨ item = none) (sF : List (K × V))
    (sL : LIFOState K V) (sR sM : LRUState K V) (sU : LFUState K V) :
    FIFOput key item sF = (sF, none) ∧
    LIFOput key item sL = (sL, none) ∧
    LRUput key item sR = (sR, none) ∧
    MRUput key item sM = (sM, none) ∧
    LFUput key item sU = (sU, none) := by
  rcases h with h | h
  · subst h
    exact ⟨rfl, rfl, rfl, rfl, rfl⟩
  · subst h
    cases key with
    | none => exact ⟨rfl, rfl, rfl, rfl, rfl⟩
    | some k => exact ⟨rfl, rfl, rfl, rfl, rfl⟩

/-- Witness for C3 at concrete inputs. -/
theorem C3_put_none_noop_witness :
    FIFOput (none : Option Nat) (some 7) [((1 : Nat), (2 : Nat))] =
      ([(1, 2)], none) ∧
    LIFOput none (some 7) (⟨[(1, 2)], [1]⟩ : LIFOState Nat Nat) =
      (⟨[(1, 2)], [1]⟩, none) ∧
    LRUput none (some 7) (⟨[(1, 2)], [1]⟩ : LRUState Nat Nat) =
      (⟨[(1, 2)], [1]⟩, none) ∧
    MRUput none (some 7) (⟨[(1, 2)], [1]⟩ : LRUState Nat Nat) =
      (⟨[(1, 2)], [1]⟩, none) ∧
    LFUput none (some 7) (⟨[(1, 2)], [(1, 1)], [(1, [1])]⟩ :
      LFUState Nat Nat) = (⟨[(1, 2)], [(1, 1)], [(1, [1])]⟩, none) :=
  C3_put_none_noop none (some 7) (Or.inl rfl) [(1, 2)] ⟨[(1, 2)], [1]⟩
    ⟨[(1, 2)], [1]⟩ ⟨[(1, 2)], [1]⟩ ⟨[(1, 2)], [(1, 1)], [(1, [1])]⟩

/-- C10: for every policy, `get` on an absent key returns `None` and
leaves the entire cache state (store and auxiliary tracking state)
unchanged. -/
theorem C10_get_miss (k : K) (sF : List (K × V)) (sL : LIFOState K V)
    (sR sM : LRUState K V) (sU : LFUState K V)
    (hF : dMem k sF = false) (hL : dMem k sL.cache_data = false)
    (hR : dMem k sR.cache_data = false) (hM : dMem k sM.cache_data = false)
    (hU : dMem k sU.cache_data = false) :
    FIFOget k sF = (sF, none) ∧ LIFOget k sL = (sL, none) ∧
    LRUget k sR = (sR, none) ∧ MRUget k sM = (sM, none) ∧
    LFUget k sU = (sU, none) := by
  have hF' : dGet k sF = none := by
    cases hg : dGet k sF with
    | none => rfl
    | some b => rw [dMem, hg] at hF; exact Bool.noConfusion hF
  have hL' : dGet k sL.cache_data = none := by
    cases hg : dGet k sL.cache_data with
    | none => rfl
    | some b => rw [dMem, hg] at hL; exact Bool.noConfusion hL
  refine ⟨?_, ?_, ?_, ?_, ?_⟩
  · simp [FIFOget, hF']
  · simp [LIFOget, hL']
  · simp only [LRUget, hR, Bool.false_eq_true, if_neg, not_false_iff]
  · simp only [MRUget, LRUget, hM, Bool.false_eq_true, if_neg, not_false_iff]
  · simp only [LFUget, hU, Bool.false_eq_true, if_neg, not_false_iff]

/-- Witness for C10 at concrete inputs. -/
theorem C10_get_miss_witness :
    FIFOget (5 : Nat) [((1 : Nat), (2 : Nat))] = ([(1, 2)], none) ∧
    LIFOget 5 (⟨[(1, 2)], [1]⟩ : LIFOState Nat Nat) =
      (⟨[(1, 2)], [1]⟩, none) ∧
    LRUget 5 (⟨[(1, 2)], [1]⟩ : LRUState Nat Nat) =
      (⟨[(1, 2)], [1]⟩, none) ∧
    MRUget 5 (⟨[(1, 2)], [1]⟩ : LRUState Nat Nat) =
      (⟨[(1, 2)], [1]⟩, none) ∧
    LFUget 5 (⟨[(1, 2)], [(1, 1)], [(1, [1])]⟩ : LFUState Nat Nat) =
      (⟨[(1, 2)], [(1, 1)], [(1, [1])]⟩, none) :=
  C10_get_miss 5 [(1, 2)] ⟨[(1, 2)], [1]⟩ ⟨[(1, 2)], [1]⟩ ⟨[(1, 2)], [1]⟩
    ⟨[(1, 2)], [(1, 1)], [(1, [1])]⟩ (by decide) (by decide) (by decide)
    (by decide) (by decide)

/-- C9: for every policy and every state, `put(k, v1); put(k, v2)` makes
`get(k)` return `v2`, and the second (updating) `put` leaves the cache
size unchanged. -/
theorem C9_put_put_get (k : K) (v1 v2 : V) (sF : List (K × V))
    (sL : LIFOState K V) (sR sM : LRUState K V) (sU : LFUState K V) :
    ((FIFOget k (FIFOput (some k) (some v2)
        (FIFOput (some k) (some v1) sF).1).1).2 = some v2 ∧
      (FIFOput (some k) (some v2) (FIFOput (some k) (some v1) sF).1).1.length
        = (FIFOput (some k) (some v1) sF).1.length) ∧
    ((LIFOget k (LIFOput (some k) (some v2)
        (LIFOput (some k) (some v1) sL).1).1).2 = some v2 ∧
      (LIFOput (some k) (some v2)
          (LIFOput (some k) (some v1) sL).1).1.cache_data.length
        = (LIFOput (some k) (some v1) sL).1.cache_data.length) ∧
    ((LRUget k (LRUput (some k) (some v2)
        (LRUput (some k) (some v1) sR).1).1).2 = some v2 ∧
      (LRUput (some k) (some v2)
          (LRUput (some k) (some v1) sR).1).1.cache_data.length
        = (LRUput (some k) (some v1) sR).1.cache_data.length) ∧
    ((MRUget k (MRUput (some k) (some v2)
        (MRUput (some k) (some v1) sM).1).1).2 = some v2 ∧
      (MRUput (some k) (some v2)
          (MRUput (some k) (some v1) sM).1).1.cache_data.length
        = (MRUput (some k) (some v1) sM).1.cache_data.length) ∧
    ((LFUget k (LFUput (some k) (some v2)
        (LFUput (some k) (some v1) sU).1).1).2 = some v2 ∧
      (LFUput (some k) (some v2)
          (LFUput (some k) (some v1) sU).1).1.cache_data.length
        = (LFUput (some k) (some v1) sU).1.cache_data.length) := by
  refine ⟨?_, ?_, ?_, ?_, ?_⟩
  · have hm := FIFOput_mem_self k v1 sF
    rw [FIFOput_update v2 hm]
    exact ⟨by simp [FIFOget, dGet_dInsert_self],
      length_dInsert_mem v2 hm⟩
  · have hm := LIFOput_mem_self k v1 sL
    rw [LIFOput_update v2 hm]
    exact ⟨by simp [LIFOget, dGet_dInsert_self],
      length_dInsert_mem v2 hm⟩
  · have hm := LRUput_mem_self k v1 sR
    rw [LRUput_update v2 hm]
    have hm2 : dMem k (dInsert k v2
        (LRUput (some k) (some v1) sR).1.cache_data) = true :=
      dMem_dInsert_self k v2 _
    exact ⟨by simp [LRUget, hm2, dGet_dInsert_self],
      length_dInsert_mem v2 hm⟩
  · have hm := MRUput_mem_self k v1 sM
    rw [MRUput_update v2 hm]
    have hm2 : dMem k (dInsert k v2
        (MRUput (some k) (some v1) sM).1.cache_data) = true :=
      dMem_dInsert_self k v2 _
    exact ⟨by simp [MRUget, LRUget, hm2, dGet_dInsert_self],
      length_dInsert_mem v2 hm⟩
  · have hm := LFUput_mem_self k v1 sU
    rw [LFUput_update v2 hm]
    have hcd := updateUsage_cache_data k
      (⟨dInsert k v2 (LFUput (some k) (some v1) sU).1.cache_data,
        (LFUput (some k) (some v1) sU).1.frequency,
        (LFUput (some k) (some v1) sU).1.usage_order⟩ : LFUState K V)
    have hm2 : dMem k (updateUsage k
        (⟨dInsert k v2 (LFUput (some k) (some v1) sU).1.cache_data,
          (LFUput (some k) (some v1) sU).1.frequency,
          (LFUput (some k) (some v1) sU).1.usage_order⟩ :
            LFUState K V)).cache_data = true := by
      rw [hcd]
      exact dMem_dInsert_self k v2 _
    refine ⟨?_, ?_⟩
    · simp only [LFUget, hm2, if_pos]
      rw [hcd]
      simp [dGet_dInsert_self]
    · rw [hcd]
      exact length_dInsert_mem v2 hm

theorem getLast?_append_singleton {α : Type} (l : List α) (a : α) :
    (l ++ [a]).getLast? = some a := by
  induction l with
  | nil => rfl
  | cons x xs ih =>
      cases xs with
      | nil => rfl
      | cons y ys =>
          simp only [List.cons_append] at ih ⊢
          rw [List.getLast?_cons_cons]
          exact ih

/-- C4: FIFO: inserting `MAX_ITEMS + 1` distinct keys into an empty cache
evicts exactly the first-inserted key (leaving the others followed by the
new key); and a `put` on an already-present key overwrites its value
without changing the key's position in the eviction (insertion) order. -/
theorem C4_fifo_order (a b c d e : K) (va vb vc vd ve : V)
    (hab : a ≠ b) (hac : a ≠ c) (had : a ≠ d) (hae : a ≠ e)
    (hbc : b ≠ c) (hbd : b ≠ d) (hbe : b ≠ e)
    (hcd : c ≠ d) (hce : c ≠ e) (hde : d ≠ e)
    (s : List (K × V)) (k : K) (v : V) (hm : dMem k s = true) :
    FIFOput (some e) (some ve)
        (runFIFO [Op.put (some a) (some va), Op.put (some b) (some vb),
                  Op.put (some c) (some vc), Op.put (some d) (some vd)]) =
      ([(b, vb), (c, vc), (d, vd), (e, ve)], some a) ∧
    FIFOput (some k) (some v) s = (dInsert k v s, none) ∧
    keysOf (dInsert k v s) = keysOf s := by
  have h4 : runFIFO [Op.put (some a) (some va), Op.put (some b) (some vb),
      Op.put (some c) (some vc), Op.put (some d) (some vd)] =
      [(a, va), (b, vb), (c, vc), (d, vd)] := by
    simp [runFIFO, FIFOstep, FIFOput, dInsert, dMem, dGet, MAX_ITEMS,
      hab.symm, hac.symm, had.symm, hbc.symm, hbd.symm, hcd.symm]
  have hcond : MAX_ITEMS ≤
      ([(a, va), (b, vb), (c, vc), (d, vd)] : List (K × V)).length ∧
      dMem e [(a, va), (b, vb), (c, vc), (d, vd)] = false := by
    refine ⟨by simp [MAX_ITEMS], ?_⟩
    simp [dMem, dGet, hae.symm, hbe.symm, hce.symm, hde.symm]
  have h5 : FIFOput (some e) (some ve)
      [(a, va), (b, vb), (c, vc), (d, vd)] =
      ([(b, vb), (c, vc), (d, vd), (e, ve)], some a) := by
    simp only [FIFOput]
    rw [if_pos hcond]
    simp [dInsert, hbe.symm, hce.symm, hde.symm]
  refine ⟨by rw [h4]; exact h5, FIFOput_update v hm, keysOf_dInsert_mem v hm⟩

/-- Witness for C4 at concrete inputs. -/
theorem C4_fifo_order_witness :
    FIFOput (some 4) (some 14)
        (runFIFO [Op.put (some 0) (some 10), Op.put (some 1) (some 11),
                  Op.put (some 2) (some 12),
                  Op.put (some (3 : Nat)) (some (13 : Nat))]) =
      ([(1, 11), (2, 12), (3, 13), (4, 14)], some 0) ∧
    FIFOput (some 9) (some 8) [(9, 9)] = (dInsert 9 8 [(9, 9)], none) ∧
    keysOf (dInsert 9 8 [((9 : Nat), (9 : Nat))]) = keysOf [(9, 9)] :=
  C4_fifo_order 0 1 2 3 4 10 11 12 13 14 (by decide) (by decide) (by decide)
    (by decide) (by decide) (by decide) (by decide) (by decide) (by decide)
    (by decide) [(9, 9)] 9 8 (by decide)

/-- C5: LIFO: when a `put` of a new key hits a full cache, the evicted key
is exactly the most recently pushed key (the stack top, which exists); and
re-`put`ting an existing key moves it to the stack top, making it the next
eviction candidate. -/
theorem C5_lifo_eviction (s : LIFOState K V) (k : K) (v : V)
    (hInv : LIFOInv s) (hcap : s.cache_data.length = MAX_ITEMS)
    (hnew : dMem k s.cache_data = false)
    (t : LIFOState K V) (k2 : K) (v2 : V)
    (hm2 : dMem k2 t.cache_data = true) :
    (∃ kr, s.stack_keys.getLast? = some kr) ∧
    (LIFOput (some k) (some v) s).2 = s.stack_keys.getLast? ∧
    (LIFOput (some k2) (some v2) t).1.stack_keys =
      t.stack_keys.erase k2 ++ [k2] ∧
    (LIFOput (some k2) (some v2) t).1.stack_keys.getLast? = some k2 := by
  have hc : MAX_ITEMS ≤ s.cache_data.length := le_of_eq hcap.symm
  have hlen : s.stack_keys.length = s.cache_data.length := by
    have h1 := hInv.hp.length_eq
    simpa [keysOf] using h1
  have hne : s.stack_keys ≠ [] := by
    intro h0
    rw [h0] at hlen
    have h4 : MAX_ITEMS = 4 := rfl
    simp at hlen
    omega
  obtain ⟨kr, hl⟩ : ∃ kr, s.stack_keys.getLast? = some kr := by
    cases hs : s.stack_keys with
    | nil => exact absurd hs hne
    | cons x xs =>
        exact ⟨(x :: xs).getLast (by simp),
          List.getLast?_eq_getLast _ (by simp)⟩
  have hmf : dMem k s.cache_data = false := hnew
  refine ⟨⟨kr, hl⟩, ?_, ?_, ?_⟩
  · rw [hl]
    simp only [LIFOput, hmf, hc, hl, Bool.false_eq_true, if_neg, if_pos,
      not_false_iff]
  · rw [LIFOput_update v2 hm2]
  · rw [LIFOput_update v2 hm2]
    exact getLast?_append_singleton _ k2

/-- Witness for C5 at concrete inputs. -/
theorem C5_lifo_eviction_witness :
    (∃ kr, ([0, 1, 2, 3] : List Nat).getLast? = some kr) ∧
    (LIFOput (some 4) (some 14)
      (⟨[(0, 10), (1, 11), (2, 12), (3, 13)], [0, 1, 2, 3]⟩ :
        LIFOState Nat Nat)).2 = ([0, 1, 2, 3] : List Nat).getLast? ∧
    (LIFOput (some 2) (some 22)
      (⟨[(0, 10), (1, 11), (2, 12), (3, 13)], [0, 1, 2, 3]⟩ :
        LIFOState Nat Nat)).1.stack_keys =
      ([0, 1, 2, 3] : List Nat).erase 2 ++ [2] ∧
    (LIFOput (some 2) (some 22)
      (⟨[(0, 10), (1, 11), (2, 12), (3, 13)], [0, 1, 2, 3]⟩ :
        LIFOState Nat Nat)).1.stack_keys.getLast? = some 2 :=
  C5_lifo_eviction ⟨[(0, 10), (1, 11), (2, 12), (3, 13)], [0, 1, 2, 3]⟩ 4 14
    ⟨by decide, by decide, by decide⟩ (by decide) (by decide)
    ⟨[(0, 10), (1, 11), (2, 12), (3, 13)], [0, 1, 2, 3]⟩ 2 22 (by decide)

/-- C6: LRU: with capacity 4, after inserting distinct keys `a b c d`,
then `get b`, inserting a new key `e` evicts exactly `a` (not `b`); and
in general a successful `get k` moves `k` to the tail of the access-order
list, making it the last of the stored keys to be evicted. -/
theorem C6_lru_recency (a b c d e : K) (va vb vc vd ve : V)
    (hab : a ≠ b) (hac : a ≠ c) (had : a ≠ d) (hae : a ≠ e)
    (hbc : b ≠ c) (hbd : b ≠ d) (hbe : b ≠ e)
    (hcd : c ≠ d) (hce : c ≠ e) (hde : d ≠ e)
    (s : LRUState K V) (k : K) (hk : dMem k s.cache_data = true) :
    (LRUput (some e) (some ve)
        (runLRU [Op.put (some a) (some va), Op.put (some b) (some vb),
                 Op.put (some c) (some vc), Op.put (some d) (some vd),
                 Op.get b])).2 = some a ∧
    (LRUget k s).1.access_order.getLast? = some k := by
  have h5 : runLRU [Op.put (some a) (some va), Op.put (some b) (some vb),
      Op.put (some c) (some vc), Op.put (some d) (some vd), Op.get b] =
      ⟨[(a, va), (b, vb), (c, vc), (d, vd)], [a, c, d, b]⟩ := by
    simp [runLRU, LRUstep, LRUput, LRUget, LRUempty, dInsert, dMem, dGet, MAX_ITEMS,
      List.erase_cons, hab.symm, hac.symm, had.symm, hbc.symm, hbd.symm,
      hcd.symm, hab, hac, had, hbc, hbd, hcd]
  rw [h5]
  constructor
  · have hmf : dMem e ([(a, va), (b, vb), (c, vc), (d, vd)] :
        List (K × V)) = false := by
      simp [dMem, dGet, hae.symm, hbe.symm, hce.symm, hde.symm]
    simp only [LRUput, hmf, Bool.false_eq_true, if_neg, not_false_iff]
    rw [if_pos (by simp [MAX_ITEMS])]
  · simp only [LRUget, hk, if_pos]
    exact getLast?_append_singleton _ k

/-- Witness for C6 at concrete inputs. -/
theorem C6_lru_recency_witness :
    (LRUput (some 4) (some 14)
        (runLRU [Op.put (some 0) (some 10), Op.put (some 1) (some 11),
                 Op.put (some 2) (some 12),
                 Op.put (some (3 : Nat)) (some (13 : Nat)),
                 Op.get 1])).2 = some 0 ∧
    (LRUget 1 (⟨[((1 : Nat), (11 : Nat))], [1]⟩ :
      LRUState Nat Nat)).1.access_order.getLast? = some 1 :=
  C6_lru_recency 0 1 2 3 4 10 11 12 13 14 (by decide) (by decide)
    (by decide) (by decide) (by decide) (by decide) (by decide) (by decide)
    (by decide) (by decide) ⟨[(1, 11)], [1]⟩ 1 (by decide)

/-- C7: MRU: with capacity 4, after inserting distinct keys `a b c d`,
then `get b`, inserting a new key `e` evicts exactly `b` (the most
recently used key); in general, a `put` of a new key into a full MRU
cache evicts the tail of the access-order list, taken before the new key
is appended. -/
theorem C7_mru_eviction (a b c d e : K) (va vb vc vd ve : V)
    (hab : a ≠ b) (hac : a ≠ c) (had : a ≠ d) (hae : a ≠ e)
    (hbc : b ≠ c) (hbd : b ≠ d) (hbe : b ≠ e)
    (hcd : c ≠ d) (hce : c ≠ e) (hde : d ≠ e)
    (s : LRUState K V) (k : K) (v : V)
    (hcap : s.cache_data.length = MAX_ITEMS)
    (hnew : dMem k s.cache_data = false) :
    (MRUput (some e) (some ve)
        (runMRU [Op.put (some a) (some va), Op.put (some b) (some vb),
                 Op.put (some c) (some vc), Op.put (some d) (some vd),
                 Op.get b])).2 = some b ∧
    (MRUput (some k) (some v) s).2 = s.access_order.getLast? := by
  have h5 : runMRU [Op.put (some a) (some va), Op.put (some b) (some vb),
      Op.put (some c) (some vc), Op.put (some d) (some vd), Op.get b] =
      ⟨[(a, va), (b, vb), (c, vc), (d, vd)], [a, c, d, b]⟩ := by
    simp [runMRU, MRUstep, MRUput, MRUget, LRUget, LRUempty, dInsert, dMem, dGet,
      MAX_ITEMS, List.erase_cons, hab.symm, hac.symm, had.symm, hbc.symm,
      hbd.symm, hcd.symm, hab, hac, had, hbc, hbd, hcd]
  rw [h5]
  constructor
  · have hmf : dMem e ([(a, va), (b, vb), (c, vc), (d, vd)] :
        List (K × V)) = false := by
      simp [dMem, dGet, hae.symm, hbe.symm, hce.symm, hde.symm]
    simp only [MRUput, hmf, Bool.false_eq_true, if_neg, not_false_iff]
    rw [if_pos (by simp [MAX_ITEMS])]
    rfl
  · have hc : MAX_ITEMS ≤ s.cache_data.length := le_of_eq hcap.symm
    cases hl : s.access_order.getLast? with
    | none =>
        simp only [MRUput, hnew, hc, hl, Bool.false_eq_true, if_neg, if_pos,
          not_false_iff]
    | some mru =>
        simp only [MRUput, hnew, hc, hl, Bool.false_eq_true, if_neg, if_pos,
          not_false_iff]

/-- Witness for C7 at concrete inputs. -/
theorem C7_mru_eviction_witness :
    (MRUput (some 4) (some 14)
        (runMRU [Op.put (some 0) (some 10), Op.put (some 1) (some 11),
                 Op.put (some 2) (some 12),
                 Op.put (some (3 : Nat)) (some (13 : Nat)),
                 Op.get 1])).2 = some 1 ∧
    (MRUput (some 4) (some 14)
      (⟨[(0, 10), (1, 11), (2, 12), (3, 13)], [0, 1, 2, 3]⟩ :
        LRUState Nat Nat)).2 = ([0, 1, 2, 3] : List Nat).getLast? :=
  C7_mru_eviction 0 1 2 3 4 10 11 12 13 14 (by decide) (by decide)
    (by decide) (by decide) (by decide) (by decide) (by decide) (by decide)
    (by decide) (by decide)
    ⟨[(0, 10), (1, 11), (2, 12), (3, 13)], [0, 1, 2, 3]⟩ 4 14 (by decide)
    (by decide)

/-- C2: LFU: with capacity 4, after inserting distinct keys `a b c d`
(each at frequency 1) and then `get b` (raising `b` to frequency 2), the
usage buckets are exactly frequency 1 ↦ `[a, c, d]` and frequency 2 ↦
`[b]`, and inserting a new key `e` evicts exactly `a` — the head of the
minimum-frequency bucket, ties within the minimum frequency broken by
least recently promoted to that level. -/
theorem C2_lfu_eviction (a b c d e : K) (va vb vc vd ve : V)
    (hab : a ≠ b) (hac : a ≠ c) (had : a ≠ d) (hae : a ≠ e)
    (hbc : b ≠ c) (hbd : b ≠ d) (hbe : b ≠ e)
    (hcd : c ≠ d) (hce : c ≠ e) (hde : d ≠ e) :
    (runLFU [Op.put (some a) (some va), Op.put (some b) (some vb),
             Op.put (some c) (some vc), Op.put (some d) (some vd),
             Op.get b]).usage_order = [(1, [a, c, d]), (2, [b])] ∧
    (LFUput (some e) (some ve)
        (runLFU [Op.put (some a) (some va), Op.put (some b) (some vb),
                 Op.put (some c) (some vc), Op.put (some d) (some vd),
                 Op.get b])).2 = some a := by
  have h5 : runLFU [Op.put (some a) (some va), Op.put (some b) (some vb),
      Op.put (some c) (some vc), Op.put (some d) (some vd), Op.get b] =
      ⟨[(a, va), (b, vb), (c, vc), (d, vd)],
       [(a, 1), (b, 2), (c, 1), (d, 1)],
       [(1, [a, c, d]), (2, [b])]⟩ := by
    simp [runLFU, LFUstep, LFUput, LFUget, LFUempty, updateUsage, dInsert,
      dMem, dGet, dPop, MAX_ITEMS, List.erase_cons,
      hab.symm, hac.symm, had.symm, hbc.symm, hbd.symm, hcd.symm,
      hab, hac, had, hbc, hbd, hcd]
  rw [h5]
  refine ⟨rfl, ?_⟩
  have hmf : dMem e ([(a, va), (b, vb), (c, vc), (d, vd)] :
      List (K × V)) = false := by
    simp [dMem, dGet, hae.symm, hbe.symm, hce.symm, hde.symm]
  simp only [LFUput, hmf, Bool.false_eq_true, if_neg, not_false_iff]
  rfl

/-- Witness for C2 at concrete inputs. -/
theorem C2_lfu_eviction_witness :
    (runLFU [Op.put (some 0) (some 10), Op.put (some 1) (some 11),
             Op.put (some 2) (some 12),
             Op.put (some (3 : Nat)) (some (13 : Nat)),
             Op.get 1]).usage_order = [(1, [0, 2, 3]), (2, [1])] ∧
    (LFUput (some 4) (some 14)
        (runLFU [Op.put (some 0) (some 10), Op.put (some 1) (some 11),
                 Op.put (some 2) (some 12),
                 Op.put (some (3 : Nat)) (some (13 : Nat)),
                 Op.get 1])).2 = some 0 :=
  C2_lfu_eviction 0 1 2 3 4 10 11 12 13 14 (by decide) (by decide)
    (by decide) (by decide) (by decide) (by decide) (by decide) (by decide)
    (by decide) (by decide)

end Caching
